import Mathlib

/-!
Shallow embedding of the zero-tokenizer BBPE core (Rust) and proofs about it.

Conventions used throughout:
* Rust `u32` / `u8` values are modelled as `Nat`; the one place where u32
  wrap-around matters (`vocab_size - vocab.len()` in release builds) models the
  subtraction explicitly modulo `2^32`.
* `HashMap` is modelled as an association list (`AMap`) with replace-on-insert
  semantics; hash-iteration order, which Rust leaves unspecified, becomes list
  order (flagged at each use site).
* Fallible Rust code (`Result<T, String>`) becomes `Except String T`.
* Byte strings (`Vec<u8>`) are `List Nat` with entries < 256; text is handled
  at the UTF-8 byte level (Rust `&str` ↔ its byte list).
-/

namespace ZeroTok

/-! ### Association-list model of `std::collections::HashMap` -/

/-- Association-list model of a hash map: later code keeps keys unique because
`amInsert` erases the key first. -/
abbrev AMap (K V : Type) := List (K × V)

/-- `HashMap::get`. -/
def amFind {K V : Type} [DecidableEq K] : AMap K V → K → Option V
  | [], _ => none
  | (k', v) :: rest, k => if k = k' then some v else amFind rest k

/-- `HashMap::remove` (removes every entry with the key; at most one exists in
maps built by `amInsert`). -/
def amErase {K V : Type} [DecidableEq K] : AMap K V → K → AMap K V
  | [], _ => []
  | (k', v) :: rest, k => if k' = k then amErase rest k else (k', v) :: amErase rest k

/-- `HashMap::insert` (replaces the previous value of the key; entry order in
the model is newest-first, matching no particular hash order). -/
def amInsert {K V : Type} [DecidableEq K] (m : AMap K V) (k : K) (v : V) : AMap K V :=
  (k, v) :: amErase m k

/-- `HashMap::len`. -/
def amLen {K V : Type} (m : AMap K V) : Nat := m.length

/-! ### `src/base/merge_job.rs`: `MergeJob` and its `Ord` instance -/

/-- Rust `u64::cmp` / `u32::cmp` (mathematical order on the modelled values). -/
def ordNat (a b : Nat) : Ordering :=
  if a < b then .lt else if a = b then .eq else .gt

/-- Rust `(u32, u32)::cmp`: lexicographic. -/
def ordPair (p q : Nat × Nat) : Ordering :=
  match ordNat p.1 q.1 with
  | .eq => ordNat p.2 q.2
  | o => o

/-- `MergeJob` (src/base/merge_job.rs): the pair to merge, its count at publish
time, and the word indices that contained the pair (Rust `HashSet<usize>`,
modelled as a list). -/
structure MergeJob where
  pair : Nat × Nat
  count : Nat
  pos : List Nat
  deriving DecidableEq, Repr

/-- `impl Ord for MergeJob` (src/base/merge_job.rs lines 30–40): by `count`
ascending (so greater = popped first from the max-heap); on equal counts the
comparison is `other.pair.cmp(&self.pair)`, i.e. reversed pair order. -/
def mergeJobCmp (j1 j2 : MergeJob) : Ordering :=
  if j1.count ≠ j2.count then ordNat j1.count j2.count
  else ordPair j2.pair j1.pair

/-- Max-extraction from the heap contents: `OctonaryHeap::pop` returns a
greatest element w.r.t. `Ord`; order among `cmp`-equal entries is an
implementation detail of the d-ary heap, modelled here as first-in-list
preference (concrete traces below never hit a `cmp`-tie). -/
def heapPopMax : List MergeJob → Option (MergeJob × List MergeJob)
  | [] => none
  | j :: rest =>
    match heapPopMax rest with
    | none => some (j, [])
    | some (best, others) =>
      if mergeJobCmp best j = .gt then some (best, j :: others) else some (j, rest)

/-! ### `BBPETokenizer::apply_merges` (src/bbpe/bbpe.rs lines 132–173),
greedy collect-then-rebuild version.  The merge table `HashMap<(u32,u32),u32>`
is modelled by its lookup function `m : Nat × Nat → Option Nat`. -/

/-- First inner loop (lines 139–146): scan left-to-right collecting
`(position, new_id)` for non-overlapping merge sites (`i += 2` after a hit). -/
def collectMerges (m : Nat × Nat → Option Nat) (i : Nat) : List Nat → List (Nat × Nat)
  | a :: b :: rest =>
    match m (a, b) with
    | some nid => (i, nid) :: collectMerges m (i + 2) rest
    | none => collectMerges m (i + 1) (b :: rest)
  | _ => []

/-- Second inner loop (lines 153–169): rebuild the sequence, substituting the
collected positions and skipping the merged element. -/
def rebuildMerges (jobs : List (Nat × Nat)) (i : Nat) : List Nat → List Nat
  | [] => []
  | x :: rest =>
    match jobs with
    | [] => x :: rebuildMerges [] (i + 1) rest
    | (p, nid) :: jrest =>
      if p = i then
        match rest with
        | [] => nid :: rebuildMerges jrest (i + 2) []
        | _ :: rest' => nid :: rebuildMerges jrest (i + 2) rest'
      else x :: rebuildMerges jobs (i + 1) rest

/-- One simultaneous left-to-right merge pass.  Proof-side summary of a single
round of either routine; both per-pass bodies are proved equal to it below. -/
def mergePass (m : Nat × Nat → Option Nat) : List Nat → List Nat
  | a :: b :: rest =>
    match m (a, b) with
    | some nid => nid :: mergePass m rest
    | none => a :: mergePass m (b :: rest)
  | l => l

theorem mergePass_length_add (m : Nat × Nat → Option Nat) :
    ∀ (l : List Nat) (i : Nat),
      (mergePass m l).length + (collectMerges m i l).length = l.length
  | [], _ => by simp [mergePass, collectMerges]
  | [a], _ => by simp [mergePass, collectMerges]
  | a :: b :: rest, i => by
    cases h : m (a, b) with
    | some nid =>
      have := mergePass_length_add m rest (i + 2)
      simp [mergePass, collectMerges, h]
      omega
    | none =>
      have := mergePass_length_add m (b :: rest) (i + 1)
      simp [mergePass, collectMerges, h] at this ⊢
      omega

theorem collectMerges_pos_ge (m : Nat × Nat → Option Nat) :
    ∀ (l : List Nat) (i : Nat), ∀ q ∈ collectMerges m i l, i ≤ q.1
  | [], _ => by simp [collectMerges]
  | [a], _ => by simp [collectMerges]
  | a :: b :: rest, i => by
    cases h : m (a, b) with
    | some nid =>
      have ih := collectMerges_pos_ge m rest (i + 2)
      simp only [collectMerges, h, List.mem_cons]
      rintro q (rfl | hq)
      · exact le_refl _
      · exact le_trans (by omega) (ih q hq)
    | none =>
      have ih := collectMerges_pos_ge m (b :: rest) (i + 1)
      simp only [collectMerges, h]
      exact fun q hq => le_trans (by omega) (ih q hq)

theorem rebuildMerges_nil : ∀ (l : List Nat) (i : Nat), rebuildMerges [] i l = l
  | [], _ => rfl
  | _ :: rest, i => by
    simpa only [rebuildMerges] using congrArg _ (rebuildMerges_nil rest (i + 1))

theorem rebuildMerges_hit_cons (nid : Nat) (qs : List (Nat × Nat)) (i x y : Nat)
    (rest : List Nat) :
    rebuildMerges ((i, nid) :: qs) i (x :: y :: rest) =
      nid :: rebuildMerges qs (i + 2) rest := by
  simp [rebuildMerges]

theorem rebuildMerges_miss (p nid : Nat) (qs : List (Nat × Nat)) (i x : Nat)
    (rest : List Nat) (h : p ≠ i) :
    rebuildMerges ((p, nid) :: qs) i (x :: rest) =
      x :: rebuildMerges ((p, nid) :: qs) (i + 1) rest := by
  cases rest <;> simp only [rebuildMerges, if_neg h]

theorem collectMerges_nil_iff (m : Nat × Nat → Option Nat) :
    ∀ (l : List Nat) (i : Nat), collectMerges m i l = [] ↔ mergePass m l = l
  | [], _ => by simp [mergePass, collectMerges]
  | [a], _ => by simp [mergePass, collectMerges]
  | a :: b :: rest, i => by
    cases h : m (a, b) with
    | some nid =>
      have hlen := mergePass_length_add m rest (i + 2)
      simp only [mergePass, collectMerges, h]
      constructor
      · intro hc; exact absurd hc (by simp)
      · intro hc
        have : (nid :: mergePass m rest).length = (a :: b :: rest).length :=
          congrArg List.length hc
        simp at this
        omega
    | none =>
      have ih := collectMerges_nil_iff m (b :: rest) (i + 1)
      simp only [mergePass, collectMerges, h, ih, List.cons.injEq, true_and]

theorem rebuildMerges_collect (m : Nat × Nat → Option Nat) :
    ∀ (l : List Nat) (i : Nat), rebuildMerges (collectMerges m i l) i l = mergePass m l
  | [], _ => by simp [mergePass, collectMerges, rebuildMerges]
  | [a], _ => by simp [mergePass, collectMerges, rebuildMerges]
  | a :: b :: rest, i => by
    cases h : m (a, b) with
    | some nid =>
      have ih := rebuildMerges_collect m rest (i + 2)
      simp only [mergePass, collectMerges, h, rebuildMerges_hit_cons]
      rw [ih]
    | none =>
      have ih := rebuildMerges_collect m (b :: rest) (i + 1)
      have hge := collectMerges_pos_ge m (b :: rest) (i + 1)
      simp only [mergePass, collectMerges, h]
      cases hc : collectMerges m (i + 1) (b :: rest) with
      | nil =>
        rw [rebuildMerges_nil, (collectMerges_nil_iff m (b :: rest) (i + 1)).mp hc]
      | cons q qs =>
        have hq : i + 1 ≤ q.1 := hge q (by rw [hc]; exact List.mem_cons_self q qs)
        obtain ⟨p, nid'⟩ := q
        rw [rebuildMerges_miss _ _ _ _ _ _ (by simp at hq; omega), ← hc, ih]

/-- `BBPETokenizer::apply_merges` (inherent method, src/bbpe/bbpe.rs lines
132–173): repeat (collect positions, stop when none, rebuild) until no merge
applies. -/
def applyMergesGreedy (m : Nat × Nat → Option Nat) (ids : List Nat) : List Nat :=
  if h2 : 2 ≤ ids.length then
    if hc : collectMerges m 0 ids = [] then ids
    else applyMergesGreedy m (rebuildMerges (collectMerges m 0 ids) 0 ids)
  else ids
termination_by ids.length
decreasing_by
  rw [rebuildMerges_collect]
  have hadd := mergePass_length_add m ids 0
  have hpos : 0 < (collectMerges m 0 ids).length := List.length_pos.mpr hc
  omega

/-- One pass of `<BBPETokenizer as MergeBasedTokenizer>::apply_merges`
(src/bbpe/bbpe.rs lines 788–809): merge while scanning left-to-right, tracking
the `changed` flag. -/
def applyMergesTraitPass (m : Nat × Nat → Option Nat) : List Nat → List Nat × Bool
  | [] => ([], false)
  | [x] => ([x], false)
  | x :: y :: rest =>
    match m (x, y) with
    | some nid => (nid :: (applyMergesTraitPass m rest).1, true)
    | none =>
      ((x :: (applyMergesTraitPass m (y :: rest)).1), (applyMergesTraitPass m (y :: rest)).2)

theorem applyMergesTraitPass_fst (m : Nat × Nat → Option Nat) :
    ∀ l : List Nat, (applyMergesTraitPass m l).1 = mergePass m l
  | [] => rfl
  | [_] => rfl
  | x :: y :: rest => by
    cases h : m (x, y) with
    | some nid =>
      simp [applyMergesTraitPass, mergePass, h, applyMergesTraitPass_fst m rest]
    | none =>
      simp [applyMergesTraitPass, mergePass, h, applyMergesTraitPass_fst m (y :: rest)]

theorem applyMergesTraitPass_snd (m : Nat × Nat → Option Nat) :
    ∀ l : List Nat, (applyMergesTraitPass m l).2 = true ↔ mergePass m l ≠ l
  | [] => by simp [applyMergesTraitPass, mergePass]
  | [x] => by simp [applyMergesTraitPass, mergePass]
  | x :: y :: rest => by
    cases h : m (x, y) with
    | some nid =>
      have hadd := mergePass_length_add m rest 0
      simp only [applyMergesTraitPass, h, mergePass, ne_eq, true_iff]
      intro heq
      have := congrArg List.length heq
      simp at this
      omega
    | none =>
      have ih := applyMergesTraitPass_snd m (y :: rest)
      simp only [applyMergesTraitPass, h, mergePass, ne_eq, List.cons.injEq, true_and, ih]

/-- `<BBPETokenizer as MergeBasedTokenizer>::apply_merges` (src/bbpe/bbpe.rs
lines 784–813): repeat the scanning pass while `changed`.  (The Rust method
returns `Ok(())` unconditionally and mutates in place; the resulting token list
is modelled directly.) -/
def applyMergesTrait (m : Nat × Nat → Option Nat) (tokens : List Nat) : List Nat :=
  if h : (applyMergesTraitPass m tokens).2 then
    applyMergesTrait m (applyMergesTraitPass m tokens).1
  else (applyMergesTraitPass m tokens).1
termination_by tokens.length
decreasing_by
  rw [applyMergesTraitPass_fst]
  have hne := (applyMergesTraitPass_snd m tokens).mp h
  have hadd := mergePass_length_add m tokens 0
  have hc : collectMerges m 0 tokens ≠ [] := fun hnil =>
    hne ((collectMerges_nil_iff m tokens 0).mp hnil)
  have hpos : 0 < (collectMerges m 0 tokens).length := List.length_pos.mpr hc
  omega

/-- C10: the two coexisting merge-application routines — the inherent greedy
collect-then-rebuild `BBPETokenizer::apply_merges` and the
`MergeBasedTokenizer::apply_merges` scanning implementation — terminate (both
are total functions here) and compute the same final id sequence for every
merge table and every input id sequence. -/
theorem C10_apply_merges_agree (m : Nat × Nat → Option Nat) (ids : List Nat) :
    applyMergesGreedy m ids = applyMergesTrait m ids := by
  rw [applyMergesGreedy, applyMergesTrait]
  by_cases h2 : 2 ≤ ids.length
  · by_cases hc : collectMerges m 0 ids = []
    · have hmp := (collectMerges_nil_iff m ids 0).mp hc
      have hsnd : ¬ (applyMergesTraitPass m ids).2 = true := by
        rw [applyMergesTraitPass_snd]; simp [hmp]
      rw [dif_pos h2, dif_pos hc, dif_neg hsnd, applyMergesTraitPass_fst, hmp]
    · have hmp_ne : mergePass m ids ≠ ids := fun heq =>
        hc ((collectMerges_nil_iff m ids 0).mpr heq)
      have hsnd : (applyMergesTraitPass m ids).2 = true :=
        (applyMergesTraitPass_snd m ids).mpr hmp_ne
      have hadd := mergePass_length_add m ids 0
      have hpos : 0 < (collectMerges m 0 ids).length := List.length_pos.mpr hc
      have hlt : (mergePass m ids).length < ids.length := by omega
      rw [dif_pos h2, dif_neg hc, dif_pos hsnd, rebuildMerges_collect,
        applyMergesTraitPass_fst]
      exact C10_apply_merges_agree m (mergePass m ids)
  · match ids, h2 with
    | [], _ => simp [applyMergesTraitPass]
    | [x], _ => simp [applyMergesTraitPass]
    | x :: y :: rest, h2 => exact absurd (by simp) h2
termination_by ids.length
decreasing_by exact hlt

/-- C6: `MergeJob` comparison — `j1` compares strictly greater than `j2`
(hence is popped first from the max-heap) iff `j1.count > j2.count`, or the
counts are equal and `j1.pair` is lexicographically smaller than `j2.pair`. -/
theorem C6_mergeJob_cmp_gt_iff (j1 j2 : MergeJob) :
    mergeJobCmp j1 j2 = .gt ↔
      (j2.count < j1.count ∨
        (j1.count = j2.count ∧
          (j1.pair.1 < j2.pair.1 ∨
            (j1.pair.1 = j2.pair.1 ∧ j1.pair.2 < j2.pair.2)))) := by
  rcases j1 with ⟨⟨a1, b1⟩, c1, p1⟩
  rcases j2 with ⟨⟨a2, b2⟩, c2, p2⟩
  simp only [mergeJobCmp, ordPair, ordNat]
  by_cases hcc : c1 = c2
  · subst hcc
    simp only [ne_eq, not_true_eq_false, if_neg, ite_not]
    split_ifs with h1 h2 h3 h4 <;> simp_all <;> omega
  · simp only [ne_eq, hcc, not_false_eq_true, if_pos]
    split_ifs with h1 h2 <;> simp_all <;> omega

/-! ### `src/base/word.rs`: `Word::merge_pair` (lines 33–68) -/

/-- The scanning loop of `Word::merge_pair`.  The Rust loop keeps an index `i`
into the mutable vector; here `left` is the reversed already-scanned prefix
(`i = left.length`) and `right` the remainder from position `i`.  A match does
*not* advance `i` (the Rust branch has no `i += 1`), so the freshly inserted
`new_id` is re-examined against the rule; a non-match advances by one.  Either
way the remainder shrinks by exactly one element per iteration, so `fuel`,
initialised to `ids.length` and decremented once per iteration, never runs out
before the loop guard `i < ids.len() - 1` (i.e. `2 ≤ right.length`) fails;
it only makes the recursion structural.  The guard comparison underflows in
Rust on an empty word (usize `0 - 1`), which no caller produces; the model
simply stops there.  `id_eq` is `|a, b| a == b` at the only call site and is
modelled as equality.  Deltas are `i32`, modelled as `Int`. -/
def mergePairGo (a b nid : Nat) :
    Nat → List Nat → List Nat → List ((Nat × Nat) × Int) →
      List Nat × List ((Nat × Nat) × Int)
  | fuel + 1, left, x :: y :: rest, acc =>
    if x = a ∧ y = b then
      let acc1 := acc ++ (match left with | l0 :: _ => [((l0, x), (-1 : Int))] | [] => [])
      let acc2 := acc1 ++ (match rest with | r0 :: _ => [((y, r0), (-1 : Int))] | [] => [])
      let acc3 := acc2 ++ (match left with | l0 :: _ => [((l0, nid), (1 : Int))] | [] => [])
      let acc4 := acc3 ++ (match rest with | r0 :: _ => [((nid, r0), (1 : Int))] | [] => [])
      mergePairGo a b nid fuel left (nid :: rest) acc4
    else mergePairGo a b nid fuel (x :: left) (y :: rest) acc
  | _, left, right, acc => (left.reverse ++ right, acc)

/-- `Word::merge_pair(pair, new_id, id_eq)`: returns the word's final id
sequence together with the list of `(pair, ±1)` deltas in emission order. -/
def mergePair (pair : Nat × Nat) (nid : Nat) (ids : List Nat) :
    List Nat × List ((Nat × Nat) × Int) :=
  mergePairGo pair.1 pair.2 nid ids.length [] ids []

theorem mergePairGo_replicate (a nid : Nat) (hne : nid ≠ a) :
    ∀ (n : Nat) (left : List Nat) (acc : List ((Nat × Nat) × Int)),
      (mergePairGo a a nid n left (List.replicate n a) acc).1.length
        = left.length + (n - n / 2)
  | 0, left, acc => by simp [mergePairGo]
  | 1, left, acc => by simp [mergePairGo]
  | n + 2, left, acc => by
    cases n with
    | zero => simp [mergePairGo]
    | succ m =>
      have hrep : List.replicate (m + 1 + 2) a = a :: a :: a :: List.replicate m a := rfl
      rw [hrep]
      simp only [mergePairGo, and_self, if_true, hne, and_true, if_false, if_neg,
        not_false_eq_true]
      have ih := mergePairGo_replicate a nid hne (m + 1) (nid :: left)
      simp only [List.replicate_succ] at ih
      rw [ih]
      simp
      omega

/-- C5 as stated is false on the code: `merge_pair` does *not* resume after the
inserted id — it re-examines it against the rule.  With `pair = (0,0)` and
`new_id = 0` on four consecutive `0`s the loop cascades and performs 3 merges
(final length 1), not ⌊4/2⌋ = 2 (final length 2). -/
theorem C5_counterexample :
    ¬ ((mergePair (0, 0) 0 (List.replicate 4 0)).1.length = 4 - 4 / 2) := by
  decide

/-- C5 (amended): `merge_pair` resumes scanning *at* the inserted `new_id` and
re-examines it against the rule; provided `new_id` differs from the rule's left
id (always true in training, where `new_id` is freshly allocated), the
re-examination never matches, and applying `merge_pair((a,a), new_id)` to `n`
consecutive copies of `a` performs exactly ⌊n/2⌋ merges, leaving final length
`n - ⌊n/2⌋`. -/
theorem C5_merge_pair_run_length (a nid n : Nat) (hne : nid ≠ a) :
    (mergePair (a, a) nid (List.replicate n a)).1.length = n - n / 2 := by
  unfold mergePair
  have := mergePairGo_replicate a nid hne n [] []
  simpa using this

theorem C5_merge_pair_run_length_witness :
    (0 : Nat) ≠ 1 ∧ (mergePair (1, 1) 0 (List.replicate 4 1)).1.length = 4 - 4 / 2 :=
  ⟨by decide, C5_merge_pair_run_length 1 0 4 (by decide)⟩

/-! ### Lookup lemmas for the association-list map -/

theorem amFind_amErase {K V : Type} [DecidableEq K] :
    ∀ (m : AMap K V) (k k' : K),
      amFind (amErase m k) k' = if k' = k then none else amFind m k'
  | [], k, k' => by simp [amErase, amFind]
  | (k0, v0) :: rest, k, k' => by
    by_cases h0 : k0 = k
    · subst h0
      rw [amErase, if_pos rfl, amFind_amErase rest k0 k']
      by_cases h1 : k' = k0 <;> simp [amFind, h1]
    · rw [amErase, if_neg h0]
      by_cases h1 : k' = k0
      · subst h1
        simp [amFind, h0]
      · simp only [amFind, if_neg h1]
        exact amFind_amErase rest k k'

theorem amFind_amInsert {K V : Type} [DecidableEq K] (m : AMap K V) (k k' : K) (v : V) :
    amFind (amInsert m k v) k' = if k' = k then some v else amFind m k' := by
  rw [amInsert, amFind, amFind_amErase]
  by_cases h : k' = k <;> simp [h]

theorem amErase_sublist {K V : Type} [DecidableEq K] :
    ∀ (m : AMap K V) (k : K), (amErase m k).Sublist m
  | [], _ => List.Sublist.refl _
  | (k0, v0) :: rest, k => by
    by_cases h0 : k0 = k
    · rw [amErase, if_pos h0]
      exact (amErase_sublist rest k).cons _
    · rw [amErase, if_neg h0]
      exact (amErase_sublist rest k).cons₂ _

theorem not_mem_amErase_keys {K V : Type} [DecidableEq K] :
    ∀ (m : AMap K V) (k : K), k ∉ (amErase m k).map Prod.fst
  | [], _ => by simp [amErase]
  | (k0, v0) :: rest, k => by
    by_cases h0 : k0 = k
    · rw [amErase, if_pos h0]
      exact not_mem_amErase_keys rest k
    · rw [amErase, if_neg h0]
      simp only [List.map_cons, List.mem_cons, not_or]
      exact ⟨fun h => h0 h.symm, not_mem_amErase_keys rest k⟩

theorem amErase_keys_nodup {K V : Type} [DecidableEq K] {m : AMap K V}
    (h : (m.map Prod.fst).Nodup) (k : K) : ((amErase m k).map Prod.fst).Nodup :=
  h.sublist ((amErase_sublist m k).map Prod.fst)

theorem amInsert_keys_nodup {K V : Type} [DecidableEq K] {m : AMap K V}
    (h : (m.map Prod.fst).Nodup) (k : K) (v : V) :
    ((amInsert m k v).map Prod.fst).Nodup := by
  rw [amInsert, List.map_cons]
  exact List.nodup_cons.mpr ⟨not_mem_amErase_keys m k, amErase_keys_nodup h k⟩

theorem mem_of_amFind_eq_some {K V : Type} [DecidableEq K] :
    ∀ {m : AMap K V} {k : K} {v : V}, amFind m k = some v → (k, v) ∈ m := by
  intro m
  induction m with
  | nil => intro k v h; simp [amFind] at h
  | cons p rest ih =>
    intro k v h
    obtain ⟨k0, v0⟩ := p
    rw [amFind] at h
    by_cases h0 : k = k0
    · rw [if_pos h0] at h
      obtain rfl := h0
      simp only [Option.some.injEq] at h
      subst h
      exact List.mem_cons_self _ _
    · rw [if_neg h0] at h
      exact List.mem_cons_of_mem _ (ih h)

theorem amFind_eq_some_of_mem {K V : Type} [DecidableEq K] :
    ∀ {m : AMap K V}, (m.map Prod.fst).Nodup →
      ∀ {k : K} {v : V}, (k, v) ∈ m → amFind m k = some v := by
  intro m
  induction m with
  | nil => intro _ k v h; simp at h
  | cons p rest ih =>
    intro hn k v h
    obtain ⟨k0, v0⟩ := p
    rw [List.map_cons, List.nodup_cons] at hn
    rcases List.mem_cons.mp h with heq | hmem
    · obtain ⟨rfl, rfl⟩ := Prod.mk.injEq .. ▸ heq
      · simp [amFind]
    · have hk : k ≠ k0 := by
        rintro rfl
        exact hn.1 (List.mem_map.mpr ⟨(k, v), hmem, rfl⟩)
      rw [amFind, if_neg hk]
      exact ih hn.2 hmem

theorem amFind_eq_some_iff {K V : Type} [DecidableEq K] {m : AMap K V}
    (hn : (m.map Prod.fst).Nodup) {k : K} {v : V} :
    amFind m k = some v ↔ (k, v) ∈ m :=
  ⟨mem_of_amFind_eq_some, amFind_eq_some_of_mem hn⟩

/-! ### `src/base/vocab_manager.rs`: `VocabManager` -/

/-- `VocabManager<K, V>`: the two hash maps. -/
structure VocabManager (K V : Type) where
  id_to_value : AMap K V
  value_to_id : AMap V K

/-- `VocabManager::new`. -/
def vmNew (K V : Type) : VocabManager K V := ⟨[], []⟩

/-- `VocabManager::insert` (lines 67–85), in source order: (1) if `id` is
present with a different old value, remove that value's reverse entry; (2) if
`value` is then present under a different old id, remove that id's forward
entry; (3) insert into both directions.  (The Rust return value — the previous
value for `id` — is not modelled; no caller in the crate uses it.) -/
def vmInsert {K V : Type} [DecidableEq K] [DecidableEq V]
    (m : VocabManager K V) (id : K) (v : V) : VocabManager K V :=
  let vti :=
    match amFind m.id_to_value id with
    | some old => if old ≠ v then amErase m.value_to_id old else m.value_to_id
    | none => m.value_to_id
  let itv :=
    match amFind vti v with
    | some oldId => if oldId ≠ id then amErase m.id_to_value oldId else m.id_to_value
    | none => m.id_to_value
  ⟨amInsert itv id v, amInsert vti v id⟩

/-- `VocabManager::remove_by_id` (lines 115–122). -/
def vmRemoveById {K V : Type} [DecidableEq K] [DecidableEq V]
    (m : VocabManager K V) (id : K) : VocabManager K V :=
  match amFind m.id_to_value id with
  | some v => ⟨amErase m.id_to_value id, amErase m.value_to_id v⟩
  | none => m

/-- `VocabManager::remove_by_value` (lines 128–135). -/
def vmRemoveByValue {K V : Type} [DecidableEq K] [DecidableEq V]
    (m : VocabManager K V) (v : V) : VocabManager K V :=
  match amFind m.value_to_id v with
  | some id => ⟨amErase m.id_to_value id, amErase m.value_to_id v⟩
  | none => m

/-- `VocabManager::validate` (lines 194–225): size check, then a pass over the
forward map checking that each value maps back to its id.  `true` models
`Ok(())`; the three error messages are collapsed into `false`. -/
def vmValidate {K V : Type} [DecidableEq K] [DecidableEq V]
    (m : VocabManager K V) : Bool :=
  if amLen m.id_to_value ≠ amLen m.value_to_id then false
  else
    m.id_to_value.all fun p =>
      match amFind m.value_to_id p.2 with
      | some rid => decide (rid = p.1)
      | none => false

/-- The operations of claim C8. -/
inductive VMOp (K V : Type) where
  | insertOp (id : K) (v : V)
  | removeByIdOp (id : K)
  | removeByValueOp (v : V)
  | clearOp

/-- Apply one operation (`clear` empties both maps, lines 138–141). -/
def vmApply {K V : Type} [DecidableEq K] [DecidableEq V]
    (m : VocabManager K V) : VMOp K V → VocabManager K V
  | .insertOp id v => vmInsert m id v
  | .removeByIdOp id => vmRemoveById m id
  | .removeByValueOp v => vmRemoveByValue m v
  | .clearOp => ⟨[], []⟩

/-- Run a sequence of operations from the empty manager. -/
def vmRun {K V : Type} [DecidableEq K] [DecidableEq V]
    (ops : List (VMOp K V)) : VocabManager K V :=
  ops.foldl vmApply (vmNew K V)

/-- The bidirectional-consistency invariant: the two maps are mutually inverse
partial functions, and each side has duplicate-free keys. -/
def vmInv {K V : Type} [DecidableEq K] [DecidableEq V] (m : VocabManager K V) : Prop :=
  (∀ i v, amFind m.id_to_value i = some v ↔ amFind m.value_to_id v = some i)
  ∧ (m.id_to_value.map Prod.fst).Nodup ∧ (m.value_to_id.map Prod.fst).Nodup

theorem vmInv_new {K V : Type} [DecidableEq K] [DecidableEq V] :
    vmInv (vmNew K V) := by
  refine ⟨fun i v => ?_, by simp [vmNew], by simp [vmNew]⟩
  simp [vmNew, amFind]

theorem vmInv_insert_core {K V : Type} [DecidableEq K] [DecidableEq V]
    (itv : AMap K V) (vti : AMap V K) (id : K) (v : V)
    (ha : ∀ i' v', i' ≠ id → v' ≠ v → (amFind itv i' = some v' ↔ amFind vti v' = some i'))
    (hb : ∀ i', i' ≠ id → amFind itv i' ≠ some v)
    (hc : ∀ v', v' ≠ v → amFind vti v' ≠ some id)
    (hnk : (itv.map Prod.fst).Nodup) (hnv : (vti.map Prod.fst).Nodup) :
    vmInv ⟨amInsert itv id v, amInsert vti v id⟩ := by
  refine ⟨fun i' v' => ?_, amInsert_keys_nodup hnk id v, amInsert_keys_nodup hnv v id⟩
  simp only [amFind_amInsert]
  by_cases hi : i' = id <;> by_cases hv : v' = v
  · subst hi; subst hv; simp
  · subst hi
    rw [if_pos rfl, if_neg hv]
    simp only [Option.some.injEq]
    exact ⟨fun e => absurd e.symm hv, fun h => absurd h (hc v' hv)⟩
  · subst hv
    rw [if_neg hi, if_pos rfl]
    simp only [Option.some.injEq]
    exact ⟨fun h => absurd h (hb i' hi), fun e => absurd e.symm hi⟩
  · rw [if_neg hi, if_neg hv]
    exact ha i' v' hi hv

theorem vmInv_insert {K V : Type} [DecidableEq K] [DecidableEq V]
    {m : VocabManager K V} (h : vmInv m) (id : K) (v : V) :
    vmInv (vmInsert m id v) := by
  obtain ⟨hiff, hnk, hnv⟩ := h
  -- injectivity facts derived from the inverse property
  have hinj : ∀ i w w', amFind m.id_to_value i = some w →
      amFind m.id_to_value i = some w' → w = w' := by
    intro i w w' e1 e2; rw [e1] at e2; exact (Option.some.injEq .. ▸ e2)
  have hinj2 : ∀ w i i', amFind m.value_to_id w = some i →
      amFind m.value_to_id w = some i' → i = i' := by
    intro w i i' e1 e2; rw [e1] at e2; exact (Option.some.injEq .. ▸ e2)
  unfold vmInsert
  rcases h1 : amFind m.id_to_value id with _ | old
  · -- id not present: step 1 keeps value_to_id
    simp only
    rcases h2 : amFind m.value_to_id v with _ | oldId
    · -- value not present either: plain double insert
      simp only
      refine vmInv_insert_core _ _ _ _ ?_ ?_ ?_ hnk hnv
      · exact fun i' v' _ _ => hiff i' v'
      · intro i' hi hfind
        have := (hiff i' v).mp hfind
        rw [h2] at this; exact Option.noConfusion this
      · intro v' hv hfind
        have := (hiff id v').mpr hfind
        rw [h1] at this; exact Option.noConfusion this
    · -- value present under oldId
      simp only
      by_cases hoi : oldId = id
      · rw [if_neg (by simp [hoi])]
        subst hoi
        -- but then id would map to v, contradicting h1; still provable directly
        refine vmInv_insert_core _ _ _ _ ?_ ?_ ?_ hnk hnv
        · exact fun i' v' _ _ => hiff i' v'
        · intro i' hi hfind
          have := (hiff i' v).mp hfind
          exact hi (hinj2 v i' oldId this h2)
        · intro v' hv hfind
          have := (hiff oldId v').mpr hfind
          rw [h1] at this; exact Option.noConfusion this
      · rw [if_pos hoi]
        refine vmInv_insert_core _ _ _ _ ?_ ?_ ?_ (amErase_keys_nodup hnk oldId) hnv
        · intro i' v' hi hv
          rw [amFind_amErase]
          by_cases hio : i' = oldId
          · subst hio
            rw [if_pos rfl]
            simp only [reduceCtorEq, false_iff]
            intro hfind
            have e1 := (hiff i' v').mpr hfind
            have e2 := (hiff i' v).mpr h2
            exact hv (hinj i' v' v e1 e2)
          · rw [if_neg hio]; exact hiff i' v'
        · intro i' hi
          rw [amFind_amErase]
          by_cases hio : i' = oldId
          · simp [hio]
          · rw [if_neg hio]
            intro hfind
            have := (hiff i' v).mp hfind
            exact hio (hinj2 v i' oldId this h2)
        · intro v' hv hfind
          have := (hiff id v').mpr hfind
          rw [h1] at this; exact Option.noConfusion this
  · -- id present with value old
    simp only
    by_cases hov : old = v
    · -- old = v: re-inserting the same value
      rw [if_neg (by simp [hov])]
      subst hov
      have h2 : amFind m.value_to_id old = some id := (hiff id old).mp h1
      rw [h2]
      simp only [ne_eq, not_true_eq_false, reduceIte]
      refine vmInv_insert_core _ _ _ _ ?_ ?_ ?_ hnk hnv
      · exact fun i' v' _ _ => hiff i' v'
      · intro i' hi hfind
        have := (hiff i' old).mp hfind
        exact hi (hinj2 old i' id this h2)
      · intro v' hv hfind
        have := (hiff id v').mpr hfind
        exact hv (hinj id v' old this h1)
    · -- old ≠ v: erase the old value's reverse entry
      rw [if_pos hov]
      have hvtv : amFind (amErase m.value_to_id old) v = amFind m.value_to_id v := by
        rw [amFind_amErase, if_neg (fun e => hov e.symm)]
      rcases h2 : amFind (amErase m.value_to_id old) v with _ | oldId
      · -- v not present
        simp only
        rw [hvtv] at h2
        refine vmInv_insert_core _ _ _ _ ?_ ?_ ?_ hnk (amErase_keys_nodup hnv old)
        · intro i' v' hi hv
          rw [amFind_amErase]
          by_cases hvo : v' = old
          · subst hvo
            rw [if_pos rfl]
            simp only [reduceCtorEq, iff_false]
            intro hfind
            have e1 := (hiff i' v').mp hfind
            have e2 := (hiff id v').mp h1
            rw [e1] at e2
            exact hi (Option.some.injEq .. ▸ e2)
          · rw [if_neg hvo]; exact hiff i' v'
        · intro i' hi hfind
          have := (hiff i' v).mp hfind
          rw [h2] at this; exact Option.noConfusion this
        · intro v' hv
          rw [amFind_amErase]
          by_cases hvo : v' = old
          · simp [hvo]
          · rw [if_neg hvo]
            intro hfind
            have := (hiff id v').mpr hfind
            exact hvo (hinj id v' old this h1)
      · -- v present under oldId (necessarily ≠ id)
        simp only
        rw [hvtv] at h2
        have hoi : oldId ≠ id := by
          intro e
          subst e
          have := (hiff oldId v).mpr h2
          exact hov (hinj oldId old v h1 this)
        rw [if_pos hoi]
        refine vmInv_insert_core _ _ _ _ ?_ ?_ ?_
          (amErase_keys_nodup hnk oldId) (amErase_keys_nodup hnv old)
        · intro i' v' hi hv
          rw [amFind_amErase, amFind_amErase]
          by_cases hio : i' = oldId <;> by_cases hvo : v' = old
          · subst hio; subst hvo; simp
          · subst hio
            rw [if_pos rfl, if_neg hvo]
            simp only [reduceCtorEq, false_iff]
            intro hfind
            have e1 := (hiff i' v').mpr hfind
            have e2 := (hiff i' v).mpr h2
            exact hv (hinj i' v' v e1 e2)
          · subst hvo
            rw [if_neg hio, if_pos rfl]
            simp only [reduceCtorEq, iff_false]
            intro hfind
            have e1 := (hiff i' v').mp hfind
            have e2 := (hiff id v').mp h1
            rw [e1] at e2
            exact hi (Option.some.injEq .. ▸ e2)
          · rw [if_neg hio, if_neg hvo]; exact hiff i' v'
        · intro i' hi
          rw [amFind_amErase]
          by_cases hio : i' = oldId
          · simp [hio]
          · rw [if_neg hio]
            intro hfind
            have := (hiff i' v).mp hfind
            exact hio (hinj2 v i' oldId this h2)
        · intro v' hv
          rw [amFind_amErase]
          by_cases hvo : v' = old
          · simp [hvo]
          · rw [if_neg hvo]
            intro hfind
            have := (hiff id v').mpr hfind
            exact hvo (hinj id v' old this h1)

theorem vmInv_removeById {K V : Type} [DecidableEq K] [DecidableEq V]
    {m : VocabManager K V} (h : vmInv m) (id : K) :
    vmInv (vmRemoveById m id) := by
  obtain ⟨hiff, hnk, hnv⟩ := h
  unfold vmRemoveById
  rcases h1 : amFind m.id_to_value id with _ | v
  · exact ⟨hiff, hnk, hnv⟩
  · simp only
    refine ⟨fun i' v' => ?_, amErase_keys_nodup hnk id, amErase_keys_nodup hnv v⟩
    rw [amFind_amErase, amFind_amErase]
    have h2 : amFind m.value_to_id v = some id := (hiff id v).mp h1
    by_cases hi : i' = id <;> by_cases hv : v' = v
    · rw [if_pos hi, if_pos hv]; simp
    · rw [if_pos hi, if_neg hv]
      simp only [reduceCtorEq, false_iff]
      intro hfind
      rw [hi] at hfind
      have h3 := (hiff id v').mpr hfind
      rw [h1] at h3
      simp only [Option.some.injEq] at h3
      exact hv h3.symm
    · rw [if_neg hi, if_pos hv]
      simp only [reduceCtorEq, iff_false]
      intro hfind
      rw [hv] at hfind
      have h3 := (hiff i' v).mp hfind
      rw [h2] at h3
      simp only [Option.some.injEq] at h3
      exact hi h3.symm
    · rw [if_neg hi, if_neg hv]; exact hiff i' v'

theorem vmInv_removeByValue {K V : Type} [DecidableEq K] [DecidableEq V]
    {m : VocabManager K V} (h : vmInv m) (v : V) :
    vmInv (vmRemoveByValue m v) := by
  obtain ⟨hiff, hnk, hnv⟩ := h
  unfold vmRemoveByValue
  rcases h1 : amFind m.value_to_id v with _ | id
  · exact ⟨hiff, hnk, hnv⟩
  · simp only
    refine ⟨fun i' v' => ?_, amErase_keys_nodup hnk id, amErase_keys_nodup hnv v⟩
    rw [amFind_amErase, amFind_amErase]
    have h2 : amFind m.id_to_value id = some v := (hiff id v).mpr h1
    by_cases hi : i' = id <;> by_cases hv : v' = v
    · rw [if_pos hi, if_pos hv]; simp
    · rw [if_pos hi, if_neg hv]
      simp only [reduceCtorEq, false_iff]
      intro hfind
      rw [hi] at hfind
      have h3 := (hiff id v').mpr hfind
      rw [h2] at h3
      simp only [Option.some.injEq] at h3
      exact hv h3.symm
    · rw [if_neg hi, if_pos hv]
      simp only [reduceCtorEq, iff_false]
      intro hfind
      rw [hv] at hfind
      have h3 := (hiff i' v).mp hfind
      rw [h1] at h3
      simp only [Option.some.injEq] at h3
      exact hi h3.symm
    · rw [if_neg hi, if_neg hv]; exact hiff i' v'

theorem vmInv_apply {K V : Type} [DecidableEq K] [DecidableEq V]
    {m : VocabManager K V} (h : vmInv m) (op : VMOp K V) :
    vmInv (vmApply m op) := by
  cases op with
  | insertOp id v => exact vmInv_insert h id v
  | removeByIdOp id => exact vmInv_removeById h id
  | removeByValueOp v => exact vmInv_removeByValue h v
  | clearOp =>
    refine ⟨fun i v => ?_, by simp [vmApply], by simp [vmApply]⟩
    simp [vmApply, amFind]

theorem vmInv_run {K V : Type} [DecidableEq K] [DecidableEq V]
    (ops : List (VMOp K V)) : vmInv (vmRun ops) := by
  have : ∀ (m : VocabManager K V), vmInv m → vmInv (ops.foldl vmApply m) := by
    induction ops with
    | nil => exact fun m h => h
    | cons op rest ih => exact fun m h => ih _ (vmInv_apply h op)
  exact this _ vmInv_new

theorem vmInv_length {K V : Type} [DecidableEq K] [DecidableEq V]
    {m : VocabManager K V} (h : vmInv m) :
    amLen m.id_to_value = amLen m.value_to_id := by
  obtain ⟨hiff, hnk, hnv⟩ := h
  have hek : m.id_to_value.Nodup := List.Nodup.of_map Prod.fst hnk
  have hev : m.value_to_id.Nodup := List.Nodup.of_map Prod.fst hnv
  have hswap : Function.Injective (Prod.swap : K × V → V × K) :=
    fun p q e => by
      obtain ⟨a, b⟩ := p; obtain ⟨c, d⟩ := q
      simp only [Prod.swap_prod_mk, Prod.mk.injEq] at e
      simp [e.1, e.2]
  have hnodup1 : (m.id_to_value.map Prod.swap).Nodup := hek.map hswap
  have hfin : (m.id_to_value.map Prod.swap).toFinset = m.value_to_id.toFinset := by
    ext p
    obtain ⟨w, i⟩ := p
    simp only [List.mem_toFinset, List.mem_map]
    constructor
    · rintro ⟨⟨i0, w0⟩, hmem, heq⟩
      simp only [Prod.swap_prod_mk, Prod.mk.injEq] at heq
      obtain ⟨rfl, rfl⟩ := heq
      exact mem_of_amFind_eq_some ((hiff i0 w0).mp (amFind_eq_some_of_mem hnk hmem))
    · intro hmem
      refine ⟨(i, w), ?_, rfl⟩
      exact mem_of_amFind_eq_some ((hiff i w).mpr (amFind_eq_some_of_mem hnv hmem))
  calc amLen m.id_to_value
      = (m.id_to_value.map Prod.swap).length := by simp [amLen]
    _ = (m.id_to_value.map Prod.swap).toFinset.card :=
        (List.toFinset_card_of_nodup hnodup1).symm
    _ = m.value_to_id.toFinset.card := by rw [hfin]
    _ = amLen m.value_to_id := List.toFinset_card_of_nodup hev

theorem vmValidate_of_inv {K V : Type} [DecidableEq K] [DecidableEq V]
    {m : VocabManager K V} (h : vmInv m) : vmValidate m = true := by
  unfold vmValidate
  rw [if_neg (by simpa using vmInv_length h)]
  rw [List.all_eq_true]
  rintro ⟨i, v⟩ hp
  have h1 : amFind m.id_to_value i = some v := amFind_eq_some_of_mem h.2.1 hp
  have h2 : amFind m.value_to_id v = some i := (h.1 i v).mp h1
  simp [h2]

/-- C8: starting from the empty `VocabManager`, every sequence of `insert`,
`remove_by_id`, `remove_by_value` and `clear` operations leaves `validate()`
returning Ok: sizes agree, both directions are functions, and id→value→id is
the identity — including inserts whose id or value is already present under a
different partner. -/
theorem C8_vocab_validate_ok {K V : Type} [DecidableEq K] [DecidableEq V]
    (ops : List (VMOp K V)) : vmValidate (vmRun ops) = true :=
  vmValidate_of_inv (vmInv_run ops)
/-! ### `impl Tokenizer for BBPETokenizer`: encode / decode
(src/bbpe/bbpe.rs lines 505–571) -/

/-- UTF-8 continuation byte (0x80–0xBF). -/
def utf8Cont (b : Nat) : Bool := 0x80 ≤ b && b ≤ 0xBF

/-- UTF-8 validity of a byte sequence, as enforced by Rust
`String::from_utf8` (RFC 3629: no overlong forms, no surrogates, max
U+10FFFF). -/
def utf8Valid : List Nat → Bool
  | [] => true
  | b :: rest =>
    if b ≤ 0x7F then utf8Valid rest
    else if 0xC2 ≤ b ∧ b ≤ 0xDF then
      match rest with
      | c1 :: rest' => utf8Cont c1 && utf8Valid rest'
      | _ => false
    else if b = 0xE0 then
      match rest with
      | c1 :: c2 :: rest' =>
        (0xA0 ≤ c1 && c1 ≤ 0xBF) && (utf8Cont c2 && utf8Valid rest')
      | _ => false
    else if (0xE1 ≤ b ∧ b ≤ 0xEC) ∨ (0xEE ≤ b ∧ b ≤ 0xEF) then
      match rest with
      | c1 :: c2 :: rest' => utf8Cont c1 && (utf8Cont c2 && utf8Valid rest')
      | _ => false
    else if b = 0xED then
      match rest with
      | c1 :: c2 :: rest' =>
        (0x80 ≤ c1 && c1 ≤ 0x9F) && (utf8Cont c2 && utf8Valid rest')
      | _ => false
    else if b = 0xF0 then
      match rest with
      | c1 :: c2 :: c3 :: rest' =>
        (0x90 ≤ c1 && c1 ≤ 0xBF) && (utf8Cont c2 && (utf8Cont c3 && utf8Valid rest'))
      | _ => false
    else if 0xF1 ≤ b ∧ b ≤ 0xF3 then
      match rest with
      | c1 :: c2 :: c3 :: rest' =>
        utf8Cont c1 && (utf8Cont c2 && (utf8Cont c3 && utf8Valid rest'))
      | _ => false
    else if b = 0xF4 then
      match rest with
      | c1 :: c2 :: c3 :: rest' =>
        (0x80 ≤ c1 && c1 ≤ 0x8F) && (utf8Cont c2 && (utf8Cont c3 && utf8Valid rest'))
      | _ => false
    else false

/-- Byte-collection loop of `BBPETokenizer::decode` (lines 559–565); `acc` is
the `bytes` vector. -/
def decodeBytesAux (vocab : Nat → Option (List Nat)) :
    List Nat → List Nat → Except String (List Nat)
  | acc, [] => .ok acc
  | acc, id :: rest =>
    match vocab id with
    | some tokenBytes => decodeBytesAux vocab (acc ++ tokenBytes) rest
    | none => .error ("未找到ID " ++ toString id ++ " 对应的词汇")

/-- `BBPETokenizer::decode` (lines 556–571).  The vocabulary `HashMap` is
given by its lookup function; the returned Rust `String` is represented by its
byte list (`String::from_utf8` succeeds exactly on `utf8Valid` input; its
error detail is abstracted to a fixed message). -/
def decode (vocab : Nat → Option (List Nat)) (tokens : List Nat) :
    Except String (List Nat) :=
  match decodeBytesAux vocab [] tokens with
  | .error e => .error e
  | .ok bytes => if utf8Valid bytes then .ok bytes else .error "UTF-8解码失败"

/-- Byte → id loop inside `encode` (lines 517–526): each byte's singleton
`Vec<u8>` is looked up in `vocab_rev`. -/
def idsOfPart (vocabRev : List Nat → Option Nat) : List Nat → Except String (List Nat)
  | [] => .ok []
  | b :: rest =>
    match vocabRev [b] with
    | some id =>
      match idsOfPart vocabRev rest with
      | .ok ids => .ok (id :: ids)
      | .error e => .error e
    | none => .error ("未找到字节 " ++ toString b ++ " 对应的ID")

/-- The loop over pre-token parts (lines 511–531): skip empty parts, id-ify,
apply merges greedily, concatenate. -/
def encodeCore (vocabRev : List Nat → Option Nat) (m : Nat × Nat → Option Nat) :
    List (List Nat) → Except String (List Nat)
  | [] => .ok []
  | part :: parts =>
    if part = [] then encodeCore vocabRev m parts
    else
      match idsOfPart vocabRev part with
      | .error e => .error e
      | .ok ids =>
        match encodeCore vocabRev m parts with
        | .error e => .error e
        | .ok rest => .ok (applyMergesGreedy m ids ++ rest)

/-- `BBPETokenizer::encode` (lines 505–554).  The regex split and the
whitespace-split fallback (taken when the regex produced nothing) are inputs —
`parts` is `self.base.split_text(text)?` and `wsParts` is
`text.split_whitespace()` — because the pattern engine (`fancy_regex`) is an
external crate.  (`split_whitespace` never yields an empty item, so routing
the fallback through `encodeCore`'s empty-part skip is behaviour-neutral.) -/
def encode (vocabRev : List Nat → Option Nat) (m : Nat × Nat → Option Nat)
    (parts wsParts : List (List Nat)) : Except String (List Nat) :=
  match encodeCore vocabRev m parts with
  | .error e => .error e
  | .ok result => if result = [] then encodeCore vocabRev m wsParts else .ok result

/-- Concatenation of the pre-token parts (used to state that the regex split
covers the input text). -/
def partsJoin : List (List Nat) → List Nat
  | [] => []
  | p :: ps => p ++ partsJoin ps

theorem decodeBytesAux_unknown (vocab : Nat → Option (List Nat)) (u : Nat)
    (post : List Nat) (hu : vocab u = none) :
    ∀ (pre : List Nat) (acc : List Nat), (∀ i ∈ pre, vocab i ≠ none) →
      decodeBytesAux vocab acc (pre ++ u :: post)
        = .error ("未找到ID " ++ toString u ++ " 对应的词汇")
  | [], acc, _ => by simp [decodeBytesAux, hu]
  | i :: pre', acc, hpre => by
    rcases hv : vocab i with _ | bs
    · exact absurd hv (hpre i (List.mem_cons_self i pre'))
    · simp only [List.cons_append, decodeBytesAux, hv]
      exact decodeBytesAux_unknown vocab u post hu pre' (acc ++ bs)
        (fun j hj => hpre j (List.mem_cons_of_mem _ hj))

/-- C9: decoding an id sequence containing an id `u` absent from the
vocabulary returns an error (not a panic) whose message contains the decimal
rendering of `u` — stated for the first unknown id in the sequence. -/
theorem C9_decode_unknown_id (vocab : Nat → Option (List Nat))
    (pre post : List Nat) (u : Nat)
    (hpre : ∀ i ∈ pre, vocab i ≠ none) (hu : vocab u = none) :
    ∃ msg, decode vocab (pre ++ u :: post) = .error msg ∧
      ∃ s t, msg = s ++ toString u ++ t := by
  refine ⟨"未找到ID " ++ toString u ++ " 对应的词汇", ?_, "未找到ID ", " 对应的词汇", rfl⟩
  unfold decode
  rw [decodeBytesAux_unknown vocab u post hu pre [] hpre]

theorem C9_decode_unknown_id_witness :
    ∃ msg, decode (fun j => if j < 256 then some [j] else none) [9999999]
        = .error msg ∧ ∃ s t, msg = s ++ toString 9999999 ++ t :=
  C9_decode_unknown_id (fun j => if j < 256 then some [j] else none) [] [] 9999999
    (by simp) (by decide)

/-- The byte string an id sequence stands for: concatenation of the vocab
entries, `none` if any id is missing. -/
def idsBytes (vocab : Nat → Option (List Nat)) : List Nat → Option (List Nat)
  | [] => some []
  | i :: rest =>
    match vocab i, idsBytes vocab rest with
    | some bs, some rest' => some (bs ++ rest')
    | _, _ => none

/-- What BBPE training establishes, used as the "trained tokenizer" hypothesis
of C1: every byte 0..255 is in `vocab_rev` with an id that decodes to exactly
that byte (the 0..255 seeding of `init_vocab`), and every merge rule `(a,b)→c`
has `vocab[c] = vocab[a] ++ vocab[b]` (lines 229–238 of the training loop). -/
structure Trained (vocab : Nat → Option (List Nat))
    (vocabRev : List Nat → Option Nat) (m : Nat × Nat → Option Nat) : Prop where
  byte_id : ∀ b, b < 256 → ∃ id, vocabRev [b] = some id ∧ vocab id = some [b]
  merge_tok : ∀ a b c, m (a, b) = some c →
    ∃ A B, vocab a = some A ∧ vocab b = some B ∧ vocab c = some (A ++ B)

theorem idsBytes_append (vocab : Nat → Option (List Nat)) :
    ∀ {l1 l2 : List Nat} {b1 b2 : List Nat},
      idsBytes vocab l1 = some b1 → idsBytes vocab l2 = some b2 →
      idsBytes vocab (l1 ++ l2) = some (b1 ++ b2) := by
  intro l1
  induction l1 with
  | nil =>
    intro l2 b1 b2 h1 h2
    simp only [idsBytes, Option.some.injEq] at h1
    subst h1
    simpa using h2
  | cons i rest ih =>
    intro l2 b1 b2 h1 h2
    rw [idsBytes] at h1
    rcases hv : vocab i with _ | bs <;> rw [hv] at h1
    · exact Option.noConfusion h1
    · rcases hr : idsBytes vocab rest with _ | rb <;> rw [hr] at h1
      · exact Option.noConfusion h1
      · simp only [Option.some.injEq] at h1
        subst h1
        rw [List.cons_append]
        simp only [idsBytes, hv, ih hr h2]
        simp [List.append_assoc]

theorem mergePass_idsBytes (vocab : Nat → Option (List Nat))
    (m : Nat × Nat → Option Nat)
    (hm : ∀ a b c, m (a, b) = some c →
      ∃ A B, vocab a = some A ∧ vocab b = some B ∧ vocab c = some (A ++ B)) :
    ∀ l : List Nat, idsBytes vocab (mergePass m l) = idsBytes vocab l
  | [] => rfl
  | [a] => rfl
  | a :: b :: rest => by
    cases h : m (a, b) with
    | some nid =>
      obtain ⟨A, B, hA, hB, hC⟩ := hm a b nid h
      have ih := mergePass_idsBytes vocab m hm rest
      simp only [mergePass, h, idsBytes, hA, hB, hC, ih]
      cases idsBytes vocab rest <;> simp [List.append_assoc]
    | none =>
      have ih := mergePass_idsBytes vocab m hm (b :: rest)
      simp only [mergePass, h, idsBytes, ih]

theorem mergePass_ne_nil (m : Nat × Nat → Option Nat) :
    ∀ l : List Nat, l ≠ [] → mergePass m l ≠ []
  | [], h => absurd rfl h
  | [a], _ => by simp [mergePass]
  | a :: b :: rest, _ => by
    cases h : m (a, b) <;> simp [mergePass, h]

theorem applyMergesGreedy_idsBytes (vocab : Nat → Option (List Nat))
    (m : Nat × Nat → Option Nat)
    (hm : ∀ a b c, m (a, b) = some c →
      ∃ A B, vocab a = some A ∧ vocab b = some B ∧ vocab c = some (A ++ B))
    (ids : List Nat) :
    idsBytes vocab (applyMergesGreedy m ids) = idsBytes vocab ids := by
  rw [applyMergesGreedy]
  by_cases h2 : 2 ≤ ids.length
  · by_cases hc : collectMerges m 0 ids = []
    · rw [dif_pos h2, dif_pos hc]
    · have hadd := mergePass_length_add m ids 0
      have hpos : 0 < (collectMerges m 0 ids).length := List.length_pos.mpr hc
      have hlt : (mergePass m ids).length < ids.length := by omega
      rw [dif_pos h2, dif_neg hc, rebuildMerges_collect]
      rw [applyMergesGreedy_idsBytes vocab m hm (mergePass m ids)]
      exact mergePass_idsBytes vocab m hm ids
  · rw [dif_neg h2]
termination_by ids.length
decreasing_by exact hlt

theorem applyMergesGreedy_ne_nil (m : Nat × Nat → Option Nat) (ids : List Nat) :
    ids ≠ [] → applyMergesGreedy m ids ≠ [] := by
  rw [applyMergesGreedy]
  by_cases h2 : 2 ≤ ids.length
  · by_cases hc : collectMerges m 0 ids = []
    · rw [dif_pos h2, dif_pos hc]; exact fun h => h
    · have hadd := mergePass_length_add m ids 0
      have hpos : 0 < (collectMerges m 0 ids).length := List.length_pos.mpr hc
      have hlt : (mergePass m ids).length < ids.length := by omega
      rw [dif_pos h2, dif_neg hc, rebuildMerges_collect]
      intro hne
      exact applyMergesGreedy_ne_nil m (mergePass m ids)
        (mergePass_ne_nil m ids hne)
  · rw [dif_neg h2]; exact fun h => h
termination_by ids.length
decreasing_by exact hlt

theorem idsOfPart_ok (vocab : Nat → Option (List Nat))
    (vocabRev : List Nat → Option Nat)
    (hb : ∀ b, b < 256 → ∃ id, vocabRev [b] = some id ∧ vocab id = some [b]) :
    ∀ part : List Nat, (∀ b ∈ part, b < 256) →
      ∃ ids, idsOfPart vocabRev part = .ok ids ∧ idsBytes vocab ids = some part ∧
        ids.length = part.length
  | [], _ => ⟨[], rfl, rfl, rfl⟩
  | b :: rest, hlt => by
    obtain ⟨id, hrev, hvoc⟩ := hb b (hlt b (List.mem_cons_self b rest))
    obtain ⟨ids, hok, hbytes, hlen⟩ :=
      idsOfPart_ok vocab vocabRev hb rest (fun x hx => hlt x (List.mem_cons_of_mem _ hx))
    refine ⟨id :: ids, ?_, ?_, by simp [hlen]⟩
    · simp only [idsOfPart, hrev, hok]
    · simp only [idsBytes, hvoc, hbytes]
      rfl

theorem encodeCore_ok (vocab : Nat → Option (List Nat))
    (vocabRev : List Nat → Option Nat) (m : Nat × Nat → Option Nat)
    (hb : ∀ b, b < 256 → ∃ id, vocabRev [b] = some id ∧ vocab id = some [b])
    (hm : ∀ a b c, m (a, b) = some c →
      ∃ A B, vocab a = some A ∧ vocab b = some B ∧ vocab c = some (A ++ B)) :
    ∀ parts : List (List Nat), (∀ p ∈ parts, ∀ b ∈ p, b < 256) →
      ∃ result, encodeCore vocabRev m parts = .ok result ∧
        idsBytes vocab result = some (partsJoin parts) ∧
        (result = [] ↔ ∀ p ∈ parts, p = [])
  | [], _ => ⟨[], rfl, rfl, by simp⟩
  | part :: parts, hlt => by
    obtain ⟨result, hok, hbytes, hempty⟩ :=
      encodeCore_ok vocab vocabRev m hb hm parts
        (fun p hp => hlt p (List.mem_cons_of_mem _ hp))
    by_cases hp : part = []
    · refine ⟨result, ?_, ?_, ?_⟩
      · simp only [encodeCore, if_pos hp, hok]
      · rw [hbytes, hp]; rfl
      · rw [hempty]
        constructor
        · intro hall q hq
          rcases List.mem_cons.mp hq with rfl | hq'
          · exact hp
          · exact hall q hq'
        · exact fun hall q hq => hall q (List.mem_cons_of_mem _ hq)
    · obtain ⟨ids, hok2, hbytes2, hlen2⟩ :=
        idsOfPart_ok vocab vocabRev hb part (hlt part (List.mem_cons_self _ _))
      have hids_ne : ids ≠ [] := by
        intro h
        rw [h] at hlen2
        exact hp (List.eq_nil_of_length_eq_zero hlen2.symm)
      refine ⟨applyMergesGreedy m ids ++ result, ?_, ?_, ?_⟩
      · simp only [encodeCore, if_neg hp, hok2, hok]
      · have h1 : idsBytes vocab (applyMergesGreedy m ids) = some part := by
          rw [applyMergesGreedy_idsBytes vocab m hm, hbytes2]
        exact idsBytes_append vocab h1 hbytes
      · constructor
        · intro h
          exact absurd (List.append_eq_nil.mp h).1 (applyMergesGreedy_ne_nil m ids hids_ne)
        · intro hall
          exact absurd (hall part (List.mem_cons_self _ _)) hp

theorem decodeBytesAux_ok (vocab : Nat → Option (List Nat)) :
    ∀ (ids acc bytes : List Nat), idsBytes vocab ids = some bytes →
      decodeBytesAux vocab acc ids = .ok (acc ++ bytes)
  | [], acc, bytes, h => by
    simp only [idsBytes, Option.some.injEq] at h
    subst h
    simp [decodeBytesAux]
  | i :: rest, acc, bytes, h => by
    rw [idsBytes] at h
    rcases hv : vocab i with _ | bs <;> rw [hv] at h
    · exact Option.noConfusion h
    · rcases hr : idsBytes vocab rest with _ | rb <;> rw [hr] at h
      · exact Option.noConfusion h
      · simp only [Option.some.injEq] at h
        subst h
        simp only [decodeBytesAux, hv]
        rw [decodeBytesAux_ok vocab rest (acc ++ bs) rb hr, List.append_assoc]

/-- C1: round-trip.  For a trained BBPE tokenizer (`Trained` holds after
`train`, and the byte seeding guarantees every byte of the input is in the
vocabulary), if the regex split covers the text (`partsJoin parts = sBytes`,
which the default GPT-4 pattern guarantees — it matches every character class)
then `decode (encode s) = Ok s`.  Text is represented by its UTF-8 byte list,
which is valid UTF-8 for every Rust `&str`. -/
theorem C1_roundtrip (vocab : Nat → Option (List Nat))
    (vocabRev : List Nat → Option Nat) (m : Nat × Nat → Option Nat)
    (sBytes : List Nat) (parts wsParts : List (List Nat))
    (ht : Trained vocab vocabRev m)
    (hsplit : partsJoin parts = sBytes)
    (hws : sBytes = [] → wsParts = [])
    (hbytes : ∀ b ∈ sBytes, b < 256)
    (hutf : utf8Valid sBytes = true) :
    ∃ ids, encode vocabRev m parts wsParts = .ok ids ∧
      decode vocab ids = .ok sBytes := by
  have hin : ∀ p ∈ parts, ∀ b ∈ p, b < 256 := by
    intro p hp b hbp
    apply hbytes
    rw [← hsplit]
    clear hsplit hbytes
    induction parts with
    | nil => exact absurd hp (List.not_mem_nil p)
    | cons q qs ih =>
      rw [partsJoin, List.mem_append]
      rcases List.mem_cons.mp hp with rfl | hq
      · exact Or.inl hbp
      · exact Or.inr (ih hq)
  obtain ⟨result, hok, hrb, hempty⟩ :=
    encodeCore_ok vocab vocabRev m ht.byte_id ht.merge_tok parts hin
  rw [hsplit] at hrb
  by_cases hres : result = []
  · -- all parts empty ⇒ the text is empty ⇒ the fallback split is empty too
    have hsb : sBytes = [] := by
      rw [← hsplit]
      have hall := hempty.mp hres
      clear hsplit hrb hempty hin hok
      induction parts with
      | nil => rfl
      | cons q qs ih =>
        rw [partsJoin, hall q (List.mem_cons_self _ _), List.nil_append]
        exact ih (fun p hp => hall p (List.mem_cons_of_mem _ hp))
    refine ⟨[], ?_, ?_⟩
    · simp only [encode, hok, if_pos hres, hws hsb]
      rfl
    · rw [hsb]
      rfl
  · refine ⟨result, ?_, ?_⟩
    · simp only [encode, if_neg hres, hok]
    · rw [decode, decodeBytesAux_ok vocab result [] sBytes hrb, List.nil_append]
      simp only [hutf, if_true]

theorem C1_roundtrip_witness :
    ∃ ids,
      encode (fun l => match l with | [b] => if b < 256 then some b else none | _ => none)
          (fun _ => none) [[104, 105]] [] = .ok ids ∧
      decode (fun i => if i < 256 then some [i] else none) ids = .ok [104, 105] :=
  C1_roundtrip (fun i => if i < 256 then some [i] else none)
    (fun l => match l with | [b] => if b < 256 then some b else none | _ => none)
    (fun _ => none) [104, 105] [[104, 105]] []
    ⟨fun b hb => ⟨b, by simp [hb], by simp [hb]⟩,
     fun a b c h => Option.noConfusion h⟩
    (by decide) (fun h => nomatch h) (by decide) (by decide)

/-! ### Save / load of the model file
(`TokenizerBase::save/load`, src/base/tokenizer_base.rs lines 128–198, and
`BBPETokenizer::save/load`, src/bbpe/bbpe.rs lines 649–780).
File lines are `List Char`; a Rust `&str` literal appears as `".."​.toList`.
Index slicing like `line[11..]` drops that many characters (the sliced
prefixes are pure ASCII, so byte and char counts agree). -/

/-- Decimal rendering (Rust `{}` / `to_string` on an unsigned integer). -/
def natChars (n : Nat) : List Char := (Nat.repr n).data

/-- `bytes.iter().map(to_string).join(" ")` (bbpe.rs lines 678–682). -/
def bytesFields : List Nat → List Char
  | [] => []
  | [b] => natChars b
  | b :: rest => natChars b ++ ' ' :: bytesFields rest

/-- Rust `line.splitn(2, ' ')`: the part before the first space, and — when a
space exists — everything after it. -/
def splitn2 : List Char → List Char × Option (List Char)
  | [] => ([], none)
  | c :: rest =>
    if c = ' ' then ([], some rest)
    else
      let (pre, post) := splitn2 rest
      (c :: pre, post)

/-- `serde_json::from_str::<u32>` / `str::parse::<uN>` as exercised by the
loader: succeeds exactly on a non-empty all-digit string (serde additionally
rejects leading zeros and both reject overflow — neither case arises from the
writer's output, whose numerals are canonical and small). -/
def parseU32Strict (s : List Char) : Option Nat :=
  if s ≠ [] ∧ s.all (fun c => c.isDigit) = true then
    some (s.foldl (fun acc c => acc * 10 + (c.toNat - 48)) 0)
  else none

/-- `a.starts_with(b)` on strings. -/
def startsWith : List Char → List Char → Bool
  | [], _ => true
  | _ :: _, [] => false
  | a :: pre, b :: s => a = b && startsWith pre s

/-- `str::split_whitespace` (space is the only whitespace in these lines):
helper collecting the current word (reversed) and completed fields. -/
def splitFieldsGo (cur : List Char) (acc : List (List Char)) :
    List Char → List (List Char)
  | [] => acc ++ (if cur = [] then [] else [cur.reverse])
  | c :: rest =>
    if c = ' ' then
      if cur = [] then splitFieldsGo [] acc rest
      else splitFieldsGo [] (acc ++ [cur.reverse]) rest
    else splitFieldsGo (c :: cur) acc rest

def splitFields (s : List Char) : List (List Char) :=
  splitFieldsGo [] [] s

/-- `BBPETokenizer::save` (bbpe.rs lines 649–697) after
`TokenizerBase::save` (tokenizer_base.rs lines 128–152): the produced file
lines.  `baseVocab` is `base.vocab` in iteration order (always empty for a
`BBPETokenizer`: nothing in bbpe.rs ever inserts into it); `vocab` and
`merges` are the hash maps in iteration order. -/
def bbpeSaveLines (pattern : List Char) (baseVocab : List (List Char × Nat))
    (baseChars : List (List Char)) (vocab : List (Nat × List Nat))
    (merges : List ((Nat × Nat) × Nat)) : List (List Char) :=
  ("pattern: ".toList ++ pattern)
    :: ("vocab_size: ".toList ++ natChars baseVocab.length)
    :: (baseVocab.map (fun e => e.1 ++ ' ' :: natChars e.2)
      ++ ("base_chars: ".toList ++ natChars baseChars.length)
        :: (baseChars.map (fun c => "base_char: ".toList ++ c)
          ++ ("vocab: ".toList ++ natChars vocab.length)
            :: ((vocab.map fun e =>
                  "vocab_entry: ".toList ++ natChars e.1 ++ ' ' :: bytesFields e.2)
              ++ ("merges: ".toList ++ natChars merges.length)
                :: (merges.map fun e =>
                    "merge: ".toList ++ natChars e.1.1 ++ ' ' ::
                      natChars e.1.2 ++ ' ' :: natChars e.2))))

/-- The per-line loop of `TokenizerBase::load` (lines 181–195): every
remaining line is parsed as `<token> <json id>` and inserted into the base
`VocabManager`; an unparsable id aborts the whole load.  (`line.trim()` is the
empty check only; the split uses the untrimmed line, and no written line
carries outer whitespace.) -/
def baseLoadLoop (acc : VocabManager Nat (List Char)) :
    List (List Char) → Except String (VocabManager Nat (List Char))
  | [] => .ok acc
  | line :: rest =>
    if line = [] then baseLoadLoop acc rest
    else
      match (splitn2 line).2 with
      | none => .error "无效的词汇表行"
      | some idStr =>
        match parseU32Strict idStr with
        | some id => baseLoadLoop (vmInsert acc id (splitn2 line).1) rest
        | none => .error "反序列化ID失败"

/-- `TokenizerBase::load` (lines 159–198): consume the pattern line (regex
recompilation is not modelled — the saved pattern compiled before), skip one
line (the `vocab_size:` header), then run the vocab-line loop on everything
else. -/
def baseLoad (lines : List (List Char)) : Except String (VocabManager Nat (List Char)) :=
  match lines with
  | [] => .ok (vmNew Nat (List Char))
  | _patternLine :: rest =>
    match rest with
    | [] => .ok (vmNew Nat (List Char))
    | _skipped :: rest' => baseLoadLoop (vmNew Nat (List Char)) rest'

/-- The BBPE-specific model data rebuilt by `BBPETokenizer::load`. -/
structure BBPEModel where
  baseChars : List (List Char)
  vocab : AMap Nat (List Nat)
  vocabRev : AMap (List Nat) Nat
  merges : AMap (Nat × Nat) Nat

/-- Parse a list of decimal fields (`parts.iter().map(|s| s.parse())`). -/
def parseFields : List (List Char) → Except String (List Nat)
  | [] => .ok []
  | f :: rest =>
    match parseU32Strict f with
    | none => .error "解析失败"
    | some n =>
      match parseFields rest with
      | .error e => .error e
      | .ok ns => .ok (n :: ns)

/-- The per-line loop of `BBPETokenizer::load` (bbpe.rs lines 721–777), with
the three section flags. -/
def bbpeLoadLoop (inB inV inM : Bool) (st : BBPEModel) :
    List (List Char) → Except String BBPEModel
  | [] => .ok st
  | line :: rest =>
    if startsWith "base_chars: ".toList line then bbpeLoadLoop true false false st rest
    else if startsWith "vocab: ".toList line then bbpeLoadLoop false true false st rest
    else if startsWith "merges: ".toList line then bbpeLoadLoop false false true st rest
    else if startsWith "base_char: ".toList line then
      if inB then
        bbpeLoadLoop inB inV inM
          { st with baseChars := st.baseChars ++ [line.drop 11] } rest
      else bbpeLoadLoop inB inV inM st rest
    else if startsWith "vocab_entry: ".toList line then
      if inV then
        match splitFields (line.drop 12) with
        | f0 :: f1 :: fs =>
          match parseU32Strict f0 with
          | none => .error "解析词汇表ID失败"
          | some id =>
            match parseFields (f1 :: fs) with
            | .error _ => .error "解析字节失败"
            | .ok bytes =>
              bbpeLoadLoop inB inV inM
                { st with vocab := amInsert st.vocab id bytes,
                          vocabRev := amInsert st.vocabRev bytes id } rest
        | _ => bbpeLoadLoop inB inV inM st rest
      else bbpeLoadLoop inB inV inM st rest
    else if startsWith "merge: ".toList line then
      if inM then
        match splitFields (line.drop 6) with
        | [f0, f1, f2] =>
          match parseU32Strict f0, parseU32Strict f1, parseU32Strict f2 with
          | some a, some b, some rank =>
            bbpeLoadLoop inB inV inM
              { st with merges := amInsert st.merges (a, b) rank } rest
          | _, _, _ => .error "解析合并规则失败"
        | _ => bbpeLoadLoop inB inV inM st rest
      else bbpeLoadLoop inB inV inM st rest
    else bbpeLoadLoop inB inV inM st rest

/-- `BBPETokenizer::load` (bbpe.rs lines 699–780): `self.base.load(path)?`
first; on success clear all BBPE data and re-read the file with the
section-flag loop. -/
def bbpeLoadLines (lines : List (List Char)) : Except String BBPEModel :=
  match baseLoad lines with
  | .error e => .error e
  | .ok _ => bbpeLoadLoop false false false ⟨[], [], [], []⟩ lines

theorem splitn2_append (post : List Char) :
    ∀ pre : List Char, ' ' ∉ pre → splitn2 (pre ++ ' ' :: post) = (pre, some post)
  | [], _ => by simp [splitn2]
  | c :: pre', hmem => by
    have hc : ¬ c = ' ' := fun e => hmem (e ▸ List.mem_cons_self c pre')
    have ih := splitn2_append post pre' (fun h => hmem (List.mem_cons_of_mem _ h))
    simp only [List.cons_append, splitn2, if_neg hc, List.append_eq, ih]

theorem parseU32Strict_space (x y : List Char) :
    parseU32Strict (x ++ ' ' :: y) = none := by
  rw [parseU32Strict, if_neg]
  intro ⟨_, hall⟩
  rw [List.all_append, List.all_cons] at hall
  have : (' '.isDigit && y.all fun c => c.isDigit) = true := by
    rcases Bool.and_eq_true .. ▸ hall with ⟨_, h2⟩
    exact h2
  rcases Bool.and_eq_true .. ▸ this with ⟨hsp, _⟩
  exact absurd hsp (by decide)

/-- C2 is false on the code: `load(save(T))` fails for every BBPE tokenizer.
`TokenizerBase::load` treats each appended BBPE line as a `<token> <json id>`
vocab line; the first `vocab_entry: <id> <byte> …` line (the vocabulary is
never empty — 256 byte entries exist from seeding) has a space inside its
"id" part, so the id deserialisation fails and `load` returns an error before
any BBPE data is read.  Stated for an arbitrary saved tokenizer with no base
chars (the default) and at least one vocab entry with a non-empty token. -/
theorem C2_load_of_save_fails (pattern : List Char) (id : Nat) (bs : List Nat)
    (hbs : bs ≠ []) (vrest : List (Nat × List Nat)) (ms : List ((Nat × Nat) × Nat)) :
    ∃ e, bbpeLoadLines (bbpeSaveLines pattern [] [] ((id, bs) :: vrest) ms)
        = .error e := by
  rw [bbpeSaveLines]
  simp only [List.map, List.nil_append, List.map_nil, List.length_nil, List.length_cons]
  rw [bbpeLoadLines]
  rw [baseLoad]
  -- the loop starts at the "base_chars: 0" line
  have l1 : ("base_chars: ".toList ++ natChars 0) = "base_chars:".toList ++ ' ' :: natChars 0 := rfl
  have l2 : ∀ n : Nat, ("vocab: ".toList ++ natChars n) = "vocab:".toList ++ ' ' :: natChars n :=
    fun n => rfl
  have l3 : ("vocab_entry: ".toList ++ natChars id ++ ' ' :: bytesFields bs)
      = "vocab_entry:".toList ++ ' ' :: (natChars id ++ ' ' :: bytesFields bs) := by
    simp [List.append_assoc]
  rw [baseLoadLoop, if_neg (by simp [l1])]
  rw [l1, splitn2_append _ _ (by decide)]
  simp only
  rw [show parseU32Strict (natChars 0) = some 0 from by decide]
  simp only
  rw [baseLoadLoop, if_neg (by simp [l2])]
  rw [l2, splitn2_append _ _ (by decide)]
  simp only
  rcases hn : parseU32Strict (natChars (vrest.length + 1)) with _ | k
  · exact ⟨_, rfl⟩
  · simp only [List.cons_append]
    rw [baseLoadLoop, if_neg (by simp [l3])]
    rw [l3, splitn2_append _ _ (by decide)]
    simp only
    rw [parseU32Strict_space]
    exact ⟨_, rfl⟩

theorem C2_load_of_save_fails_witness :
    ∃ e, bbpeLoadLines (bbpeSaveLines [] [] [] [(97, [97])] []) = .error e :=
  C2_load_of_save_fails [] 97 [97] (by decide) [] []

/-! ### BBPE training
(`BBPETokenizer::train` / `train_core_incremental`, src/bbpe/bbpe.rs lines
175–281 and 573–643; `count_pairs_parallel`, src/base/tokenizer_base.rs lines
223–254). -/

/-- `Word::pairs` (src/base/word.rs lines 27–29). -/
def wordPairs : List Nat → List (Nat × Nat)
  | a :: b :: rest => (a, b) :: wordPairs (b :: rest)
  | _ => []

/-- Pair-count contribution of one word with multiplicity `c`. -/
def addPairsOfWord (pc : AMap (Nat × Nat) Int) (w : List Nat) (c : Int) :
    AMap (Nat × Nat) Int :=
  (wordPairs w).foldl (fun acc p => amInsert acc p ((amFind acc p).getD 0 + c)) pc

/-- The pair-count half of `count_pairs_parallel`: the rayon map-reduce sums
`counts[i]` per adjacent pair; the reduction is associative/commutative, so the
sequential fold computes the same map contents (assoc-list key order stands in
for hash order). -/
def countPairs (words : List (List Nat)) (counts : List Int) : AMap (Nat × Nat) Int :=
  (words.zip counts).foldl (fun acc wc => addPairsOfWord acc wc.1 wc.2) []

/-- The `where_to_update` half of `count_pairs_parallel` (lines 246–251): for
each word index, push it once per pair occurrence. -/
def wherePositions (words : List (List Nat)) : AMap (Nat × Nat) (List Nat) :=
  words.enum.foldl
    (fun acc iw =>
      (wordPairs iw.2).foldl
        (fun acc p => amInsert acc p ((amFind acc p).getD [] ++ [iw.1])) acc)
    []

/-- Heap build (bbpe.rs lines 192–203): one job per `where_to_update` entry
with positive count; `MergeJob::add_positions` inserts into a `HashSet`, so
positions are deduplicated. -/
def buildHeap (pc : AMap (Nat × Nat) Int) (wtu : AMap (Nat × Nat) (List Nat)) :
    List MergeJob :=
  wtu.foldl
    (fun h e =>
      let c := (amFind pc e.1).getD 0
      if 0 < c then h ++ [⟨e.1, c.toNat, e.2.dedup⟩] else h)
    []

/-- The state of `train_core_incremental` at the top of the merge loop. -/
structure TrainState where
  words : List (List Nat)
  counts : List Int
  pairCounts : AMap (Nat × Nat) Int
  heap : List MergeJob
  merges : AMap (Nat × Nat) Nat
  vocab : AMap Nat (List Nat)
  vocabRev : AMap (List Nat) Nat
  initialVocabSize : Nat
  numMerges : Nat
  mergesDone : Nat
  deriving DecidableEq

/-- `train_core_incremental` before the loop (lines 182–212): clear `merges`,
count pairs, build the heap, snapshot the initial vocabulary size. -/
def initTrainState (words : List (List Nat)) (counts : List Int)
    (vocab : AMap Nat (List Nat)) (vocabRev : AMap (List Nat) Nat)
    (numMerges : Nat) : TrainState :=
  let pc := countPairs words counts
  let wtu := wherePositions words
  { words := words, counts := counts, pairCounts := pc,
    heap := buildHeap pc wtu, merges := [], vocab := vocab,
    vocabRev := vocabRev, initialVocabSize := amLen vocab,
    numMerges := numMerges, mergesDone := 0 }

/-- The `VALIDATED → APPLIED → PUBLISHED` part of one loop iteration (lines
228–270).  `top.pos` and the Rust hash maps are iterated in model list order
(Rust leaves hash/set order unspecified); positions added to `updated_where`
are set-deduplicated.  The Rust code indexes `self.vocab[&pair]` (panicking if
absent — impossible in reachable states), modelled with `getD`. -/
def applyTopMerge (s : TrainState) (top : MergeJob) : TrainState :=
  let newId := s.initialVocabSize + s.mergesDone
  let merges' := amInsert s.merges top.pair newId
  let newTok := (amFind s.vocab top.pair.1).getD [] ++ (amFind s.vocab top.pair.2).getD []
  let vocab' := amInsert s.vocab newId newTok
  let vocabRev' := amInsert s.vocabRev newTok newId
  let upd :=
    top.pos.foldl
      (fun (acc : List (List Nat) × AMap (Nat × Nat) Int × AMap (Nat × Nat) (List Nat)) wi =>
        let w := acc.1.getD wi []
        let r := mergePair top.pair newId w
        let ws' := acc.1.set wi r.1
        let cnt := s.counts.getD wi 0
        let up' := r.2.foldl
          (fun m pd => amInsert m pd.1 ((amFind m pd.1).getD 0 + pd.2 * cnt)) acc.2.1
        let uw' := r.2.foldl
          (fun m pd =>
            let cur := (amFind m pd.1).getD []
            if wi ∈ cur then m else amInsert m pd.1 (cur ++ [wi]))
          acc.2.2
        (ws', up', uw'))
      (s.words, [], [])
  let published :=
    upd.2.1.foldl
      (fun (acc : AMap (Nat × Nat) Int × List MergeJob) pd =>
        let entry := (amFind acc.1 pd.1).getD 0 + pd.2
        if entry ≤ 0 then (amErase acc.1 pd.1, acc.2)
        else
          match amFind upd.2.2 pd.1 with
          | some posSet => (amInsert acc.1 pd.1 entry, acc.2 ++ [⟨pd.1, entry.toNat, posSet⟩])
          | none => (amInsert acc.1 pd.1 entry, acc.2))
      (s.pairCounts, s.heap)
  { s with words := upd.1, pairCounts := published.1, heap := published.2,
           merges := merges', vocab := vocab', vocabRev := vocabRev',
           mergesDone := s.mergesDone + 1 }

/-- One iteration of the merge loop (lines 214–278): `none` models loop exit
(goal reached or heap empty); a stale pop (`continue`) just drops the entry.
`current_count as u64` is `Int.toNat` (counts in the map are positive; a
negative count would compare unequal to the job's positive count either
way). -/
def trainStep (s : TrainState) : Option TrainState :=
  if s.mergesDone < s.numMerges then
    match heapPopMax s.heap with
    | none => none
    | some (top, restHeap) =>
      match amFind s.pairCounts top.pair with
      | none => some { s with heap := restHeap }
      | some c =>
        if c.toNat ≠ top.count then some { s with heap := restHeap }
        else some (applyTopMerge { s with heap := restHeap } top)
  else none

theorem heapPopMax_length :
    ∀ {l : List MergeJob} {j : MergeJob} {rest : List MergeJob},
      heapPopMax l = some (j, rest) → rest.length + 1 = l.length := by
  intro l
  induction l with
  | nil => intro j rest h; simp [heapPopMax] at h
  | cons x xs ih =>
    intro j rest h
    rw [heapPopMax] at h
    rcases hx : heapPopMax xs with _ | p
    · rw [hx] at h
      simp only [Option.some.injEq, Prod.mk.injEq] at h
      obtain ⟨_, rfl⟩ := h
      have : xs = [] := by
        cases xs with
        | nil => rfl
        | cons y ys =>
          rw [heapPopMax] at hx
          rcases hy : heapPopMax ys with _ | q <;> rw [hy] at hx
          · exact Option.noConfusion hx
          · obtain ⟨b, o⟩ := q
            by_cases hcmp : mergeJobCmp b y = .gt <;> simp [hcmp] at hx
      simp [this]
    · rw [hx] at h
      obtain ⟨best, others⟩ := p
      have hlen := ih hx
      by_cases hcmp : mergeJobCmp best x = .gt <;>
        simp only [hcmp, if_pos, if_neg, reduceIte, Option.some.injEq, Prod.mk.injEq] at h
      · obtain ⟨_, rfl⟩ := h
        simp only [List.length_cons] at hlen ⊢
        omega
      · obtain ⟨_, rfl⟩ := h
        simp

theorem trainStep_fields (s s' : TrainState) (h : trainStep s = some s') :
    s'.numMerges = s.numMerges ∧
      ((s'.mergesDone = s.mergesDone ∧ s'.heap.length + 1 = s.heap.length) ∨
        (s'.mergesDone = s.mergesDone + 1 ∧ s.mergesDone < s.numMerges)) := by
  rw [trainStep] at h
  by_cases hg : s.mergesDone < s.numMerges
  · rw [if_pos hg] at h
    rcases hp : heapPopMax s.heap with _ | tr <;> rw [hp] at h <;> dsimp only at h
    · exact Option.noConfusion h
    · obtain ⟨top, restHeap⟩ := tr
      have hlen := heapPopMax_length hp
      rcases hc : amFind s.pairCounts top.pair with _ | c <;> rw [hc] at h <;>
        dsimp only at h
      · simp only [Option.some.injEq] at h
        subst h
        exact ⟨rfl, Or.inl ⟨rfl, hlen⟩⟩
      · by_cases hne : c.toNat ≠ top.count
        · rw [if_pos hne] at h
          simp only [Option.some.injEq] at h
          subst h
          exact ⟨rfl, Or.inl ⟨rfl, hlen⟩⟩
        · rw [if_neg hne] at h
          simp only [Option.some.injEq] at h
          subst h
          exact ⟨rfl, Or.inr ⟨rfl, hg⟩⟩
  · rw [if_neg hg] at h
    exact Option.noConfusion h

/-- The merge loop (lines 214–278) run to completion.  Termination: each
iteration either performs a merge (bounded by `num_merges`) or discards one
heap entry. -/
def trainLoop (s : TrainState) : TrainState :=
  match h : trainStep s with
  | none => s
  | some s' => trainLoop s'
termination_by (s.numMerges - s.mergesDone, s.heap.length)
decreasing_by
  obtain ⟨hnm, hcase⟩ := trainStep_fields s s' h
  rcases hcase with ⟨hmd, hlen⟩ | ⟨hmd, hlt⟩
  · rw [hnm, hmd]
    exact Prod.Lex.right _ (by omega)
  · exact Prod.Lex.left _ _ (by omega)

/-- Word/count construction inside `BBPETokenizer::train` (lines 588–636).
Each text contributes its regex parts (first component) or, when the global
`words` vector is still empty after them, its whitespace-split fallback parts
(second component).  Every kept pre-token becomes its own `Word` with count 1.
`byteId` is the (panicking-on-miss in Rust, total here) `vocab_rev` lookup of
a single byte. -/
def buildWordsCounts (byteId : Nat → Nat)
    (textsParts : List (List (List Nat) × List (List Nat))) :
    List (List Nat) × List Int :=
  textsParts.foldl
    (fun acc tp =>
      let afterParts :=
        tp.1.foldl
          (fun (a : List (List Nat) × List Int) part =>
            if part = [] then a
            else (a.1 ++ [part.map byteId], a.2 ++ [(1 : Int)]))
          acc
      if afterParts.1 = [] then
        tp.2.foldl
          (fun (a : List (List Nat) × List Int) w =>
            (a.1 ++ [w.map byteId], a.2 ++ [(1 : Int)]))
          afterParts
      else afterParts)
    ([], [])

/-- `init_vocab` (bbpe.rs lines 284–311): base chars get ids 0.., then every
byte value not already present gets the next id; returns (vocab, vocab_rev,
next_token_id).  `base_chars` (a Rust `HashSet`) is iterated in list order. -/
def initVocab (baseChars : List (List Nat)) :
    AMap Nat (List Nat) × AMap (List Nat) Nat × Nat :=
  let seeded := baseChars.enum.foldl
    (fun (acc : AMap Nat (List Nat) × AMap (List Nat) Nat) e =>
      (amInsert acc.1 e.1 e.2, amInsert acc.2 e.2 e.1))
    ([], [])
  (List.range 256).foldl
    (fun (acc : AMap Nat (List Nat) × AMap (List Nat) Nat × Nat) b =>
      if amFind acc.2.1 [b] ≠ none then acc
      else (amInsert acc.1 acc.2.2 [b], amInsert acc.2.1 [b] acc.2.2, acc.2.2 + 1))
    (seeded.1, seeded.2, baseChars.length)

/-- `_load_vocab_from_dict` (bbpe.rs lines 97–128) applied to already-read
non-empty token lines: each token is added at `next_token_id`. -/
def loadVocabFromDict (vocab : AMap Nat (List Nat)) (vocabRev : AMap (List Nat) Nat)
    (nextId : Nat) (tokens : List (List Nat)) :
    AMap Nat (List Nat) × AMap (List Nat) Nat × Nat :=
  tokens.foldl
    (fun (acc : AMap Nat (List Nat) × AMap (List Nat) Nat × Nat) tok =>
      (amInsert acc.1 acc.2.2 tok, amInsert acc.2.1 tok acc.2.2, acc.2.2 + 1))
    (vocab, vocabRev, nextId)

/-- `BBPETokenizer::train` (lines 573–643).  The per-text regex split and
whitespace fallback are inputs (the pattern engine is external).  The
`num_merges = vocab_size - vocab.len()` subtraction is u32 arithmetic: it
wraps in release builds (debug builds would panic on underflow), modelled
explicitly modulo `2^32`. -/
def bbpeTrain (vocab : AMap Nat (List Nat)) (vocabRev : AMap (List Nat) Nat)
    (baseChars : List (List Nat))
    (textsParts : List (List (List Nat) × List (List Nat)))
    (vocabSize : Nat) : Except String TrainState :=
  if vocabSize < 256 then .error "词汇表大小必须至少为256"
  else
    let seeded :=
      if vocab = [] then
        let iv := initVocab baseChars
        (iv.1, iv.2.1)
      else (vocab, vocabRev)
    let wc := buildWordsCounts (fun b => (amFind seeded.2 [b]).getD 0) textsParts
    let numMerges := (vocabSize + 2 ^ 32 - amLen seeded.1) % 2 ^ 32
    .ok (trainLoop (initTrainState wc.1 wc.2 seeded.1 seeded.2 numMerges))

/-! ### Claims C3, C4, C7 about training -/

/-- Number of adjacent occurrences of a pair inside one word. -/
def pairOccurrences (p : Nat × Nat) (w : List Nat) : Nat := (wordPairs w).count p

/-- The live weighted occurrence count of a pair across the corpus:
Σᵢ counts[i] · (occurrences of p in words[i]). -/
def liveCount (words : List (List Nat)) (counts : List Int) (p : Nat × Nat) : Int :=
  (words.zip counts).foldl
    (fun acc wc => acc + wc.2 * (pairOccurrences p wc.1 : Int)) 0

/-- The seeded byte vocabulary — the contents `init_vocab` produces with no
base chars: id b ↦ [b] for every byte.  (The assoc-list entry order stands in
for the unspecified `HashMap` iteration order throughout.) -/
def byteVocab : AMap Nat (List Nat) := (List.range 256).map fun i => (i, [i])

def byteVocabRev : AMap (List Nat) Nat := (List.range 256).map fun i => ([i], i)

/-- The reachable training state for the corpus consisting of the single
pre-token "ab" with multiplicity 1, on a freshly seeded byte vocabulary, with
one merge to learn (target vocabulary 257 ⇒ `num_merges = 1`). -/
def trainC3S0 : TrainState :=
  initTrainState [[97, 98]] [1] byteVocab byteVocabRev 1

def trainC3S1 : TrainState := (trainStep trainC3S0).getD trainC3S0

set_option maxRecDepth 10000 in
/-- C3: `Word::merge_pair` emits deltas only for the *neighbours* of a merged
occurrence, never −1 for the merged pair itself, and the training loop removes
nothing else — so immediately after the merge of (97,98) is applied to all its
positions, `PairCounts` still maps (97,98) to 1 (the entry is neither removed
nor equal to the live occurrence count, which is 0).  A later pop of a fresh
(97,98) job would pass the staleness check and merge the same pair again under
a new id. -/
theorem C3_paircounts_not_live :
    (trainStep trainC3S0).isSome = true ∧
      trainC3S1.mergesDone = 1 ∧
      amFind trainC3S1.merges (97, 98) = some 256 ∧
      trainC3S1.words = [[256]] ∧
      amFind trainC3S1.pairCounts (97, 98) = some 1 ∧
      liveCount trainC3S1.words trainC3S1.counts (97, 98) = 0 := by
  decide

/-- All (nonempty) regex pre-tokens of the pre-tokenized input, in order. -/
def allParts : List (List (List Nat) × List (List Nat)) → List (List Nat)
  | [] => []
  | tp :: rest => tp.1.filter (fun p => decide (p ≠ [])) ++ allParts rest

/-- Claim C4 as stated: the words handed to the incremental trainer are
deduplicated — each distinct pre-token appears as exactly one `Word`, whose
count equals the pre-token's multiplicity in the pre-tokenized input. -/
abbrev dedupClaim (byteId : Nat → Nat)
    (tps : List (List (List Nat) × List (List Nat))) : Prop :=
  (buildWordsCounts byteId tps).1.Nodup ∧
    ∀ i < (buildWordsCounts byteId tps).1.length,
      (buildWordsCounts byteId tps).2.getD i 0 =
        (((allParts tps).countP
          fun p => decide (p.map byteId = (buildWordsCounts byteId tps).1.getD i [])) : Int)

/-- C4 is false on the code: a text whose regex split contains the same
pre-token twice yields two identical `Word`s with count 1 each — `train`
pushes `counts.push(1)` per occurrence and never deduplicates. -/
theorem C4_counterexample : ¬ dedupClaim (fun b => b) [([[97], [97]], [])] := by
  decide

theorem buildWords_parts_fold (byteId : Nat → Nat) :
    ∀ (parts : List (List Nat)) (ws : List (List Nat)) (cs : List Int),
      parts.foldl
        (fun (a : List (List Nat) × List Int) part =>
          if part = [] then a else (a.1 ++ [part.map byteId], a.2 ++ [(1 : Int)]))
        (ws, cs)
      = (ws ++ (parts.filter fun p => decide (p ≠ [])).map (List.map byteId),
         cs ++ List.replicate (parts.filter fun p => decide (p ≠ [])).length (1 : Int))
  | [], ws, cs => by simp
  | p :: rest, ws, cs => by
    by_cases hp : p = []
    · rw [List.foldl_cons, if_pos hp]
      rw [buildWords_parts_fold byteId rest ws cs]
      simp [hp]
    · rw [List.foldl_cons, if_neg hp]
      rw [buildWords_parts_fold byteId rest (ws ++ [p.map byteId]) (cs ++ [1])]
      simp only [List.filter_cons, decide_eq_true_eq]
      rw [if_pos (by simpa using hp)]
      simp [List.append_assoc, List.replicate_succ]

/-- C4 (amended): training performs no deduplication — for a single text whose
regex split produced at least one non-empty pre-token, the words handed to the
trainer are exactly the non-empty pre-tokens in order, one `Word` per
*occurrence*, and every count is 1 (multiplicities are represented by
repetition, not by counts). -/
theorem C4_words_per_occurrence (byteId : Nat → Nat) (parts ws : List (List Nat))
    (h : ∃ p ∈ parts, p ≠ []) :
    buildWordsCounts byteId [(parts, ws)]
      = ((parts.filter fun p => decide (p ≠ [])).map (List.map byteId),
         List.replicate (parts.filter fun p => decide (p ≠ [])).length 1) := by
  obtain ⟨p, hp, hne⟩ := h
  rw [buildWordsCounts, List.foldl_cons, List.foldl_nil]
  simp only
  rw [buildWords_parts_fold byteId parts [] []]
  simp only [List.nil_append]
  rw [if_neg]
  intro hnil
  have : p ∈ parts.filter fun q => decide (q ≠ []) :=
    List.mem_filter.mpr ⟨hp, by simpa using hne⟩
  rw [List.map_eq_nil] at hnil
  rw [hnil] at this
  exact List.not_mem_nil p this

theorem C4_words_per_occurrence_witness :
    buildWordsCounts (fun b => b) [([[97], [97]], [])]
      = ((([[97], [97]] : List (List Nat)).filter fun p => decide (p ≠ [])).map
          (List.map fun b => b),
         List.replicate
          (([[97], [97]] : List (List Nat)).filter fun p => decide (p ≠ [])).length 1) :=
  C4_words_per_occurrence (fun b => b) [[97], [97]] [] ⟨[97], by decide, by decide⟩

/-- `Result::is_ok`. -/
def exceptOk : Except String TrainState → Bool
  | .ok _ => true
  | .error _ => false

/-- A BBPE tokenizer whose initial vocabulary has 257 entries: byte seeding
plus one dictionary token loaded by `_load_vocab_from_dict`. -/
def vocab257 : AMap Nat (List Nat) :=
  (loadVocabFromDict byteVocab byteVocabRev 256 [[104, 105]]).1

def vocabRev257 : AMap (List Nat) Nat :=
  (loadVocabFromDict byteVocab byteVocabRev 256 [[104, 105]]).2.1

set_option maxRecDepth 10000 in
/-- C7 is false as stated: for a tokenizer whose initial vocabulary size is
257 (> 256), training with target V = 256 — strictly below the initial size —
does *not* return a configuration error: the guard only checks `V < 256`, and
the `num_merges` u32 subtraction wraps (release) or panics (debug); with an
empty corpus the call returns Ok. -/
theorem C7_counterexample :
    256 < amLen vocab257 ∧
      exceptOk (bbpeTrain vocab257 vocabRev257 [] [] 256) = true :=
  ⟨by decide, rfl⟩

/-- C7 (amended): `train` returns the configuration error exactly for targets
below the BBPE byte minimum 256 — the check `vocab_size < 256` is the first
statement of `train`, before any vocabulary initialisation, corpus processing
or merge recording (the model returns the error without constructing any
state), regardless of the tokenizer's actual initial vocabulary size. -/
theorem C7_small_vocab_config_error (vocab : AMap Nat (List Nat))
    (vocabRev : AMap (List Nat) Nat) (baseChars : List (List Nat))
    (tps : List (List (List Nat) × List (List Nat))) (V : Nat) (h : V < 256) :
    bbpeTrain vocab vocabRev baseChars tps V = .error "词汇表大小必须至少为256" := by
  rw [bbpeTrain, if_pos h]

theorem C7_small_vocab_config_error_witness :
    bbpeTrain [] [] [] [] 100 = .error "词汇表大小必须至少为256" :=
  C7_small_vocab_config_error [] [] [] [] 100 (by decide)

end ZeroTok
